import Mathlib

/-!
Verification development for the math/geometry kernel and simulated clock of
the cesiumTS repository. Numeric values are modelled as exact rationals; the
TypeScript sources use double-precision floats, and every claim checked here
is about exact value-level structure (branching, ordering, componentwise
copies), not rounding. Each definition is a direct translation of the
corresponding TypeScript function.
-/

/-- A 3D point, after `Cartesian3` (components `x`, `y`, `z`).
The `Cartesian3` implementation file is not under the excerpted sources; its
componentwise operations used below (`midpoint`, `subtract`,
`multiplyComponents`, `dot`) are modelled from the spec section 4.1 contract
for vector arithmetic (componentwise operations on the numeric tuple). -/
structure Cartesian3 where
  x : ℚ
  y : ℚ
  z : ℚ
deriving DecidableEq, Repr

/-- Modelled from the spec: `Cartesian3.midpoint`, the componentwise midpoint
of two points. -/
def Cartesian3.midpoint (a b : Cartesian3) : Cartesian3 :=
  ⟨(a.x + b.x) / 2, (a.y + b.y) / 2, (a.z + b.z) / 2⟩

/-- Modelled from the spec: componentwise subtraction `Cartesian3.subtract`. -/
def Cartesian3.sub (a b : Cartesian3) : Cartesian3 :=
  ⟨a.x - b.x, a.y - b.y, a.z - b.z⟩

/-- Modelled from the spec: componentwise product `Cartesian3.multiplyComponents`. -/
def Cartesian3.multiplyComponents (a b : Cartesian3) : Cartesian3 :=
  ⟨a.x * b.x, a.y * b.y, a.z * b.z⟩

/-- Modelled from the spec: the dot product `Cartesian3.dot`. -/
def Cartesian3.dot (a b : Cartesian3) : ℚ :=
  a.x * b.x + a.y * b.y + a.z * b.z

/-- The zero vector `Cartesian3.ZERO`. -/
def Cartesian3.ZERO : Cartesian3 := ⟨0, 0, 0⟩

/-- An axis-aligned bounding box, after `AxisAlignedBoundingBox`:
minimum corner, maximum corner, and center. -/
structure AxisAlignedBoundingBox where
  minimum : Cartesian3
  maximum : Cartesian3
  center : Cartesian3
deriving DecidableEq, Repr

/-- The state of the min/max scan in `AxisAlignedBoundingBox.fromPoints`:
one step of the loop body folding a point into the running componentwise
minima and maxima. -/
def aabbScanStep (acc : Cartesian3 × Cartesian3) (p : Cartesian3) :
    Cartesian3 × Cartesian3 :=
  (⟨min p.x acc.1.x, min p.y acc.1.y, min p.z acc.1.z⟩,
   ⟨max p.x acc.2.x, max p.y acc.2.y, max p.z acc.2.z⟩)

/-- `AxisAlignedBoundingBox.fromPoints`: componentwise min/max of the point
list via a single linear scan seeded with the first point; an empty (or
absent) list yields the zero box. The optional `result` parameter only
selects which object is overwritten; every field is assigned, so the value
computed is the same and is modelled directly. -/
def AxisAlignedBoundingBox.fromPoints (positions : List Cartesian3) :
    AxisAlignedBoundingBox :=
  match positions with
  | [] => ⟨Cartesian3.ZERO, Cartesian3.ZERO, Cartesian3.ZERO⟩
  | p0 :: rest =>
    let mm := rest.foldl aabbScanStep (p0, p0)
    ⟨mm.1, mm.2, Cartesian3.midpoint mm.1 mm.2⟩

/-- A 2D bounding rectangle, after `BoundingRectangle`: lower-left corner
`x`,`y` plus `width` and `height`. -/
structure BoundingRectangle where
  x : ℚ
  y : ℚ
  width : ℚ
  height : ℚ
deriving DecidableEq, Repr

/-- `BoundingRectangle.union`: the enclosing rectangle of two rectangles,
from the componentwise min of the lower-left corners and max of the
upper-right corners. -/
def BoundingRectangle.union (left right : BoundingRectangle) :
    BoundingRectangle :=
  let lowerLeftX := min left.x right.x
  let lowerLeftY := min left.y right.y
  let upperRightX := max (left.x + left.width) (right.x + right.width)
  let upperRightY := max (left.y + left.height) (right.y + right.height)
  ⟨lowerLeftX, lowerLeftY, upperRightX - lowerLeftX, upperRightY - lowerLeftY⟩

/-- `BoundingRectangle.pack`: writes `x`, `y`, `width`, `height` at
consecutive indices starting at `startingIndex`. The JS array write at an
in-range index is modelled by `List.set`. -/
def BoundingRectangle.pack (value : BoundingRectangle) (array : List ℚ)
    (startingIndex : ℕ) : List ℚ :=
  ((((array.set startingIndex value.x).set (startingIndex + 1) value.y).set
      (startingIndex + 2) value.width).set (startingIndex + 3) value.height)

/-- `BoundingRectangle.unpack`: reads `x`, `y`, `width`, `height` from
consecutive indices, into a fresh instance when `result` is absent or
overwriting every field of `result` when present. -/
def BoundingRectangle.unpack (array : List ℚ) (startingIndex : ℕ)
    (result : Option BoundingRectangle) : BoundingRectangle :=
  match result with
  | none =>
    ⟨array.getD startingIndex 0, array.getD (startingIndex + 1) 0,
     array.getD (startingIndex + 2) 0, array.getD (startingIndex + 3) 0⟩
  | some r =>
    { r with
      x := array.getD startingIndex 0
      y := array.getD (startingIndex + 1) 0
      width := array.getD (startingIndex + 2) 0
      height := array.getD (startingIndex + 3) 0 }

/-- `BoundingRectangle.clone` (on a defined rectangle): allocates
`new BoundingRectangle(x, y, width, height)` when `result` is absent,
otherwise overwrites all four fields of `result`. -/
def BoundingRectangle.clone (rectangle : BoundingRectangle)
    (result : Option BoundingRectangle) : BoundingRectangle :=
  match result with
  | none => ⟨rectangle.x, rectangle.y, rectangle.width, rectangle.height⟩
  | some r =>
    { r with
      x := rectangle.x
      y := rectangle.y
      width := rectangle.width
      height := rectangle.height }

/-- A 2x2 matrix after `Matrix2`, stored column-major exactly as the four
indexed slots `this[0] .. this[3]` of the source class
(`e0` = column 0 row 0, `e1` = column 0 row 1, `e2` = column 1 row 0,
`e3` = column 1 row 1). -/
structure Matrix2 where
  e0 : ℚ
  e1 : ℚ
  e2 : ℚ
  e3 : ℚ
deriving DecidableEq, Repr

/-- The `Matrix2` constructor: arguments arrive in row-major order
(column0Row0, column1Row0, column0Row1, column1Row1) and are stored
column-major. -/
def Matrix2.mk' (column0Row0 column1Row0 column0Row1 column1Row1 : ℚ) :
    Matrix2 :=
  ⟨column0Row0, column0Row1, column1Row0, column1Row1⟩

/-- `Matrix2.pack`: writes the four column-major slots at consecutive
indices starting at `startingIndex`. -/
def Matrix2.pack (value : Matrix2) (array : List ℚ) (startingIndex : ℕ) :
    List ℚ :=
  ((((array.set startingIndex value.e0).set (startingIndex + 1) value.e1).set
      (startingIndex + 2) value.e2).set (startingIndex + 3) value.e3)

/-- `Matrix2.unpack`: reads four consecutive slots; when `result` is absent
it allocates `new Matrix2()` (the zero matrix) and then assigns every slot,
when present it assigns every slot of `result`. -/
def Matrix2.unpack (array : List ℚ) (startingIndex : ℕ)
    (result : Option Matrix2) : Matrix2 :=
  match result with
  | none =>
    { Matrix2.mk' 0 0 0 0 with
      e0 := array.getD startingIndex 0
      e1 := array.getD (startingIndex + 1) 0
      e2 := array.getD (startingIndex + 2) 0
      e3 := array.getD (startingIndex + 3) 0 }
  | some r =>
    { r with
      e0 := array.getD startingIndex 0
      e1 := array.getD (startingIndex + 1) 0
      e2 := array.getD (startingIndex + 2) 0
      e3 := array.getD (startingIndex + 3) 0 }

/-- `Matrix2.clone` (on a defined matrix): when `result` is absent it calls
the row-major constructor as `new Matrix2(matrix[0], matrix[2], matrix[1],
matrix[3])`; when present it copies the four slots in storage order. -/
def Matrix2.clone (matrix : Matrix2) (result : Option Matrix2) : Matrix2 :=
  match result with
  | none => Matrix2.mk' matrix.e0 matrix.e2 matrix.e1 matrix.e3
  | some r =>
    { r with e0 := matrix.e0, e1 := matrix.e1, e2 := matrix.e2, e3 := matrix.e3 }

/-- A visibility interval after `DistanceDisplayCondition`: camera distances
`near` and `far`. -/
structure DistanceDisplayCondition where
  near : ℚ
  far : ℚ
deriving DecidableEq, Repr

/-- `DistanceDisplayCondition.pack`: writes `near` then `far` at consecutive
indices. -/
def DistanceDisplayCondition.pack (value : DistanceDisplayCondition)
    (array : List ℚ) (startingIndex : ℕ) : List ℚ :=
  ((array.set startingIndex value.near).set (startingIndex + 1) value.far)

/-- `DistanceDisplayCondition.unpack`: reads `near` then `far`, into a fresh
default instance when `result` is absent (both fields are then assigned). -/
def DistanceDisplayCondition.unpack (array : List ℚ) (startingIndex : ℕ)
    (result : Option DistanceDisplayCondition) : DistanceDisplayCondition :=
  match result with
  | none =>
    ⟨array.getD startingIndex 0, array.getD (startingIndex + 1) 0⟩
  | some r =>
    { r with
      near := array.getD startingIndex 0
      far := array.getD (startingIndex + 1) 0 }

/-- Clock step mode, after the `ClockStep` enumeration: fixed per-tick
advance, wall-clock elapsed time scaled by the multiplier, or following the
system clock exactly. -/
inductive ClockStep where
  | TICK_DEPENDENT
  | SYSTEM_CLOCK_MULTIPLIER
  | SYSTEM_CLOCK
deriving DecidableEq, Repr

/-- Clock range mode, after the `ClockRange` enumeration: unbounded, clamp
at the bounds, or loop back to start at the stop bound. -/
inductive ClockRange where
  | UNBOUNDED
  | CLAMPED
  | LOOP_STOP
deriving DecidableEq, Repr

/-- The simulated clock state, after the fields of `Clock`. Times are
`JulianDate` values in the source; `JulianDate` is imported but not among
the excerpted sources, so times are modelled from the spec as exact
rational epochs in seconds, with `addSeconds` as addition,
`secondsDifference` as subtraction, and the comparison operations as the
rational order. -/
structure Clock where
  startTime : ℚ
  stopTime : ℚ
  clockRange : ClockRange
  canAnimate : Bool
  currentTime : ℚ
  multiplier : ℚ
  clockStep : ClockStep
  shouldAnimate : Bool
  lastSystemTime : ℚ
deriving DecidableEq, Repr

/-- The `currentTime` setter: a no-op when the new value equals the stored
one; otherwise demotes `SYSTEM_CLOCK` step mode to
`SYSTEM_CLOCK_MULTIPLIER` and stores the value. -/
def Clock.setCurrentTime (c : Clock) (value : ℚ) : Clock :=
  if c.currentTime = value then c
  else
    { c with
      clockStep :=
        if c.clockStep = ClockStep.SYSTEM_CLOCK then
          ClockStep.SYSTEM_CLOCK_MULTIPLIER
        else c.clockStep
      currentTime := value }

/-- The `multiplier` setter: a no-op when the new value equals the stored
one; otherwise demotes `SYSTEM_CLOCK` step mode and stores the value. -/
def Clock.setMultiplier (c : Clock) (value : ℚ) : Clock :=
  if c.multiplier = value then c
  else
    { c with
      clockStep :=
        if c.clockStep = ClockStep.SYSTEM_CLOCK then
          ClockStep.SYSTEM_CLOCK_MULTIPLIER
        else c.clockStep
      multiplier := value }

/-- The `shouldAnimate` setter: a no-op when the new value equals the stored
one; otherwise demotes `SYSTEM_CLOCK` step mode and stores the value. -/
def Clock.setShouldAnimate (c : Clock) (value : Bool) : Clock :=
  if c.shouldAnimate = value then c
  else
    { c with
      clockStep :=
        if c.clockStep = ClockStep.SYSTEM_CLOCK then
          ClockStep.SYSTEM_CLOCK_MULTIPLIER
        else c.clockStep
      shouldAnimate := value }

/-- The `clockStep` setter: assigning `SYSTEM_CLOCK` also forces
`multiplier = 1`, `shouldAnimate = true`, and `currentTime` to the current
system time (`JulianDate.now()`, passed here as the `now` argument). -/
def Clock.setClockStep (c : Clock) (value : ClockStep) (now : ℚ) : Clock :=
  if value = ClockStep.SYSTEM_CLOCK then
    { c with multiplier := 1, shouldAnimate := true, currentTime := now,
             clockStep := value }
  else { c with clockStep := value }

/-- The `LOOP_STOP` wrap loop inside `Clock.tick`: while the time exceeds
`stopTime`, replace it by `startTime` plus the excess past `stopTime`,
counting one `onStop` notification per wrap. The source `while` loop is
embedded with explicit fuel; `none` means the fuel ran out with the loop
still running. -/
def loopStopWrap (startTime stopTime : ℚ) : ℕ → ℚ → Option (ℚ × ℕ)
  | 0, t => if stopTime < t then none else some (t, 0)
  | fuel + 1, t =>
    if stopTime < t then
      (loopStopWrap startTime stopTime fuel (startTime + (t - stopTime))).map
        (fun p => (p.1, p.2 + 1))
    else some (t, 0)

/-- `Clock.tick`: advances the clock one frame. `currentSystemTime` is the
captured `getTimestamp()` value in milliseconds and `nowJD` the value
`JulianDate.now()` would produce; both are inputs of the embedding since
they come from the environment. The returned number counts how many times
the `onStop` event was raised during the call (the `onTick` event is raised
exactly once on every path, when the function returns). `none` occurs only
when the `LOOP_STOP` wrap loop exceeds the given fuel. -/
def Clock.tick (c : Clock) (currentSystemTime nowJD : ℚ) (fuel : ℕ) :
    Option (Clock × ℕ) :=
  if c.canAnimate && c.shouldAnimate then
    if c.clockStep = ClockStep.SYSTEM_CLOCK then
      some ({ c with currentTime := nowJD,
                     lastSystemTime := currentSystemTime }, 0)
    else
      let t :=
        if c.clockStep = ClockStep.TICK_DEPENDENT then
          c.currentTime + c.multiplier
        else
          c.currentTime +
            c.multiplier * ((currentSystemTime - c.lastSystemTime) / 1000)
      match c.clockRange with
      | ClockRange.UNBOUNDED =>
        some ({ c with currentTime := t,
                       lastSystemTime := currentSystemTime }, 0)
      | ClockRange.CLAMPED =>
        if t < c.startTime then
          some ({ c with currentTime := c.startTime,
                         lastSystemTime := currentSystemTime }, 0)
        else if c.stopTime < t then
          some ({ c with currentTime := c.stopTime,
                         lastSystemTime := currentSystemTime }, 1)
        else
          some ({ c with currentTime := t,
                         lastSystemTime := currentSystemTime }, 0)
      | ClockRange.LOOP_STOP =>
        let t1 := if t < c.startTime then c.startTime else t
        (loopStopWrap c.startTime c.stopTime fuel t1).map
          (fun p => ({ c with currentTime := p.1,
                              lastSystemTime := currentSystemTime }, p.2))
  else
    some ({ c with lastSystemTime := currentSystemTime }, 0)

/-- The wrap loop returns immediately when the time does not exceed
`stopTime`, for any fuel. -/
theorem loopStopWrap_no_overflow (startTime stopTime t : ℚ)
    (h : ¬ stopTime < t) (n : ℕ) :
    loopStopWrap startTime stopTime n t = some (t, 0) := by
  cases n with
  | zero => simp [loopStopWrap, h]
  | succ m => simp [loopStopWrap, h]

/-- The wrap loop of the C1 scenario: starting 15 seconds past the stop
bound of a 10-second window, it wraps twice and lands 5 seconds after the
start. -/
theorem loopStopWrap_c1 (T0 : ℚ) (n : ℕ) :
    loopStopWrap T0 (T0 + 10) (n + 2) (T0 + 25) = some (T0 + 5, 2) := by
  have h1 : T0 + 10 < T0 + 25 := by linarith
  have h2 : T0 + 10 < T0 + 15 := by linarith
  have h3 : ¬ (T0 + 10 < T0 + 5) := by linarith
  have e1 : T0 + (T0 + 25 - (T0 + 10)) = T0 + 15 := by ring
  have e2 : T0 + (T0 + 15 - (T0 + 10)) = T0 + 5 := by ring
  show loopStopWrap T0 (T0 + 10) (n + 1 + 1) (T0 + 25) = some (T0 + 5, 2)
  rw [loopStopWrap, if_pos h1, e1, loopStopWrap, if_pos h2, e2,
    loopStopWrap_no_overflow _ _ _ h3 n]
  rfl

/-- C1: with `startTime = T0`, `stopTime = T0 + 10`, `clockRange =
LOOP_STOP`, `clockStep = TICK_DEPENDENT`, `multiplier = 25`,
`shouldAnimate = canAnimate = true`, and `currentTime = T0`, a single
`tick()` (with any sufficient wrap fuel, here two or more) ends with
`currentTime = T0 + 5` and raises the `onStop` event exactly twice, once
per wrap past the stop bound. -/
theorem clock_loop_wrap_scenario (T0 lastSys sys now : ℚ) (n : ℕ) :
    Clock.tick
        ⟨T0, T0 + 10, ClockRange.LOOP_STOP, true, T0, 25,
         ClockStep.TICK_DEPENDENT, true, lastSys⟩ sys now (n + 2)
      = some
          (⟨T0, T0 + 10, ClockRange.LOOP_STOP, true, T0 + 5, 25,
            ClockStep.TICK_DEPENDENT, true, sys⟩, 2) := by
  have hlt : ¬ (T0 + 25 < T0) := by linarith
  simp [Clock.tick, hlt, loopStopWrap_c1]

/-- C2: with `clockRange = CLAMPED`, `multiplier = 100`, and the same
10-second window, a single `tick()` advances past the stop bound, clamps
`currentTime` to `T0 + 10`, and raises `onStop` exactly once (the fuel is
irrelevant since the clamped branch has no loop). -/
theorem clock_clamp_scenario (T0 lastSys sys now : ℚ) (fuel : ℕ) :
    Clock.tick
        ⟨T0, T0 + 10, ClockRange.CLAMPED, true, T0, 100,
         ClockStep.TICK_DEPENDENT, true, lastSys⟩ sys now fuel
      = some
          (⟨T0, T0 + 10, ClockRange.CLAMPED, true, T0 + 10, 100,
            ClockStep.TICK_DEPENDENT, true, sys⟩, 1) := by
  have h1 : ¬ (T0 + 100 < T0) := by linarith
  have h2 : T0 + 10 < T0 + 100 := by linarith
  simp [Clock.tick, h1, h2]

/-- A clock state in `SYSTEM_CLOCK` step mode (as the `clockStep` setter
would leave it: multiplier 1, animating, current time some epoch). -/
def systemClockState : Clock :=
  ⟨0, 10, ClockRange.UNBOUNDED, true, 0, 1, ClockStep.SYSTEM_CLOCK, true, 0⟩

/-- C3 counterexample: the three demoting setters first compare the new
value with the stored one and return without any side effect when they are
equal, so assigning the current value to `currentTime` on a `SYSTEM_CLOCK`
clock leaves `clockStep` unchanged, contradicting the claim that assigning
any value demotes the mode. -/
theorem clock_setter_same_value_no_demote :
    systemClockState.clockStep = ClockStep.SYSTEM_CLOCK ∧
    (systemClockState.setCurrentTime 0).clockStep ≠
      ClockStep.SYSTEM_CLOCK_MULTIPLIER := by
  constructor
  · rfl
  · simp [systemClockState, Clock.setCurrentTime]

/-- C3 (amended): assigning a value different from the stored one to
`currentTime`, `multiplier`, or `shouldAnimate` on a clock in
`SYSTEM_CLOCK` step mode demotes the mode to `SYSTEM_CLOCK_MULTIPLIER`;
and assigning `SYSTEM_CLOCK` to `clockStep` on any clock forces
`multiplier = 1`, `shouldAnimate = true`, and `currentTime` to the current
system time. -/
theorem clock_setter_coupling :
    (∀ (c : Clock) (v : ℚ), c.clockStep = ClockStep.SYSTEM_CLOCK →
        c.currentTime ≠ v →
        (c.setCurrentTime v).clockStep = ClockStep.SYSTEM_CLOCK_MULTIPLIER) ∧
    (∀ (c : Clock) (v : ℚ), c.clockStep = ClockStep.SYSTEM_CLOCK →
        c.multiplier ≠ v →
        (c.setMultiplier v).clockStep = ClockStep.SYSTEM_CLOCK_MULTIPLIER) ∧
    (∀ (c : Clock) (v : Bool), c.clockStep = ClockStep.SYSTEM_CLOCK →
        c.shouldAnimate ≠ v →
        (c.setShouldAnimate v).clockStep = ClockStep.SYSTEM_CLOCK_MULTIPLIER) ∧
    (∀ (c : Clock) (now : ℚ),
        (c.setClockStep ClockStep.SYSTEM_CLOCK now).multiplier = 1 ∧
        (c.setClockStep ClockStep.SYSTEM_CLOCK now).shouldAnimate = true ∧
        (c.setClockStep ClockStep.SYSTEM_CLOCK now).currentTime = now ∧
        (c.setClockStep ClockStep.SYSTEM_CLOCK now).clockStep =
          ClockStep.SYSTEM_CLOCK) := by
  refine ⟨?_, ?_, ?_, ?_⟩
  · intro c v hstep hne
    simp [Clock.setCurrentTime, hne, hstep]
  · intro c v hstep hne
    simp [Clock.setMultiplier, hne, hstep]
  · intro c v hstep hne
    simp [Clock.setShouldAnimate, hne, hstep]
  · intro c now
    simp [Clock.setClockStep]

/-- C3 witness: the amended setter-coupling theorem applied on a concrete
`SYSTEM_CLOCK` clock with concrete fresh values. -/
theorem clock_setter_coupling_witness :
    (systemClockState.setCurrentTime 3).clockStep =
        ClockStep.SYSTEM_CLOCK_MULTIPLIER ∧
    (systemClockState.setMultiplier 2).clockStep =
        ClockStep.SYSTEM_CLOCK_MULTIPLIER ∧
    (systemClockState.setShouldAnimate false).clockStep =
        ClockStep.SYSTEM_CLOCK_MULTIPLIER ∧
    (systemClockState.setClockStep ClockStep.SYSTEM_CLOCK 7).currentTime = 7 :=
  ⟨clock_setter_coupling.1 systemClockState 3 rfl (by norm_num [systemClockState]),
   clock_setter_coupling.2.1 systemClockState 2 rfl (by norm_num [systemClockState]),
   clock_setter_coupling.2.2.1 systemClockState false rfl
     (by simp [systemClockState]),
   (clock_setter_coupling.2.2.2 systemClockState 7).2.2.1⟩

/-- Termination of one `tick()` call: some amount of wrap fuel suffices for
the call to return. -/
def TickTerminates (c : Clock) (sys now : ℚ) : Prop :=
  ∃ fuel, (Clock.tick c sys now fuel).isSome

/-- A clock permitted by the constructor check (`startTime ≤ stopTime`
holds, with equality) on which the `LOOP_STOP` wrap loop never exits:
the wrap subtracts `stopTime - startTime = 0` each iteration. -/
def degenerateLoopClock : Clock :=
  ⟨0, 0, ClockRange.LOOP_STOP, true, 0, 1, ClockStep.TICK_DEPENDENT, true, 0⟩

/-- With coincident bounds the wrap loop makes no progress: started past
the stop bound it runs out of any amount of fuel. -/
theorem loopStopWrap_degenerate (n : ℕ) : loopStopWrap 0 0 n 1 = none := by
  induction n with
  | zero => simp [loopStopWrap]
  | succ m ih =>
    rw [loopStopWrap, if_pos (by norm_num : (0:ℚ) < 1)]
    rw [show (0:ℚ) + (1 - 0) = 1 by norm_num, ih]
    rfl

/-- C9 counterexample: `degenerateLoopClock` satisfies the
constructor-enforced precondition `startTime ≤ stopTime`, yet `tick()` on
it never terminates — no amount of wrap fuel makes the call return. -/
theorem clock_tick_nontermination :
    degenerateLoopClock.startTime ≤ degenerateLoopClock.stopTime ∧
    ¬ TickTerminates degenerateLoopClock 0 0 := by
  constructor
  · norm_num [degenerateLoopClock]
  · rintro ⟨fuel, hsome⟩
    have h0 : (if (1:ℚ) < 0 then (0:ℚ) else 1) = 1 := by norm_num
    simp [Clock.tick, degenerateLoopClock, h0, loopStopWrap_degenerate]
      at hsome

/-- Bounded wrap distance gives termination: if the excess past the stop
bound is at most `k` periods, `k + 1` units of fuel suffice. -/
theorem loopStopWrap_isSome_of_bound (startTime stopTime : ℚ) :
    ∀ (k : ℕ) (t : ℚ), t - stopTime ≤ k * (stopTime - startTime) →
      (loopStopWrap startTime stopTime (k + 1) t).isSome := by
  intro k
  induction k with
  | zero =>
    intro t ht
    have hle : ¬ stopTime < t := by push_cast at ht; intro hc; linarith
    simp [loopStopWrap, hle]
  | succ m ih =>
    intro t ht
    by_cases hgt : stopTime < t
    · rw [show m + 1 + 1 = (m + 1) + 1 from rfl, loopStopWrap, if_pos hgt,
        Option.isSome_map']
      apply ih
      have hcast : ((m + 1 : ℕ) : ℚ) = (m : ℚ) + 1 := by push_cast; ring
      rw [hcast] at ht
      linarith
    · simp [loopStopWrap, hgt]

/-- For strictly ordered bounds the wrap loop always terminates with enough
fuel, from any starting time. -/
theorem loopStopWrap_terminates (startTime stopTime t : ℚ)
    (h : startTime < stopTime) :
    ∃ n, (loopStopWrap startTime stopTime n t).isSome := by
  have hd : (0:ℚ) < stopTime - startTime := by linarith
  refine ⟨(⌈(t - stopTime) / (stopTime - startTime)⌉).toNat + 1,
    loopStopWrap_isSome_of_bound startTime stopTime _ t ?_⟩
  have h1 : (t - stopTime) / (stopTime - startTime) ≤
      ((⌈(t - stopTime) / (stopTime - startTime)⌉ : ℤ) : ℚ) := Int.le_ceil _
  have h2 : ((⌈(t - stopTime) / (stopTime - startTime)⌉ : ℤ) : ℚ) ≤
      (((⌈(t - stopTime) / (stopTime - startTime)⌉).toNat : ℕ) : ℚ) := by
    exact_mod_cast Int.self_le_toNat _
  have h3 : (t - stopTime) / (stopTime - startTime) ≤
      (((⌈(t - stopTime) / (stopTime - startTime)⌉).toNat : ℕ) : ℚ) :=
    le_trans h1 h2
  calc t - stopTime
      = ((t - stopTime) / (stopTime - startTime)) * (stopTime - startTime) := by
        field_simp
    _ ≤ (((⌈(t - stopTime) / (stopTime - startTime)⌉).toNat : ℕ) : ℚ) *
          (stopTime - startTime) :=
        mul_le_mul_of_nonneg_right h3 (le_of_lt hd)

/-- C9 (amended): `tick()` terminates for every clock state whose bounds
are strictly ordered, `startTime < stopTime`; the constructor-permitted
boundary case `startTime = stopTime` is excluded (see the counterexample). -/
theorem clock_tick_terminates (c : Clock) (sys now : ℚ)
    (h : c.startTime < c.stopTime) : TickTerminates c sys now := by
  obtain ⟨st, sp, range, can, cur, mult, step, sa, lst⟩ := c
  simp only at h
  by_cases hrun : (can && sa) = true
  · cases step with
    | SYSTEM_CLOCK => exact ⟨0, by simp [Clock.tick, hrun]⟩
    | TICK_DEPENDENT =>
      cases range with
      | UNBOUNDED => exact ⟨0, by simp [Clock.tick, hrun]⟩
      | CLAMPED =>
        refine ⟨0, ?_⟩
        simp only [Clock.tick, hrun, if_true, if_pos, reduceCtorEq, if_neg]
        split_ifs <;> simp
      | LOOP_STOP =>
        obtain ⟨n, hn⟩ := loopStopWrap_terminates st sp
          (if cur + mult < st then st else cur + mult) h
        refine ⟨n, ?_⟩
        simpa [Clock.tick, hrun, Option.isSome_map'] using hn
    | SYSTEM_CLOCK_MULTIPLIER =>
      cases range with
      | UNBOUNDED => exact ⟨0, by simp [Clock.tick, hrun]⟩
      | CLAMPED =>
        refine ⟨0, ?_⟩
        simp only [Clock.tick, hrun, if_true, if_pos, reduceCtorEq, if_neg]
        split_ifs <;> simp
      | LOOP_STOP =>
        obtain ⟨n, hn⟩ := loopStopWrap_terminates st sp
          (if cur + mult * ((sys - lst) / 1000) < st then st
           else cur + mult * ((sys - lst) / 1000)) h
        refine ⟨n, ?_⟩
        simpa [Clock.tick, hrun, Option.isSome_map'] using hn
  · exact ⟨0, by simp [Clock.tick, hrun]⟩

/-- C9 witness: the termination theorem applied on a concrete looping clock
with strictly ordered bounds. -/
theorem clock_tick_terminates_witness :
    (⟨0, 1, ClockRange.LOOP_STOP, true, 0, 25, ClockStep.TICK_DEPENDENT,
      true, 0⟩ : Clock).startTime <
      (⟨0, 1, ClockRange.LOOP_STOP, true, 0, 25, ClockStep.TICK_DEPENDENT,
        true, 0⟩ : Clock).stopTime ∧
    TickTerminates
      ⟨0, 1, ClockRange.LOOP_STOP, true, 0, 25, ClockStep.TICK_DEPENDENT,
       true, 0⟩ 0 0 :=
  ⟨by norm_num,
   clock_tick_terminates
     ⟨0, 1, ClockRange.LOOP_STOP, true, 0, 25, ClockStep.TICK_DEPENDENT,
      true, 0⟩ 0 0 (by norm_num)⟩

/-- A running fold of binary `min` over a list of rationals never exceeds
its seed. -/
theorem qfoldl_min_le_init (l : List ℚ) (i : ℚ) :
    l.foldl (fun m v => min v m) i ≤ i := by
  induction l generalizing i with
  | nil => exact le_refl i
  | cons hd tl ih => exact le_trans (ih (min hd i)) (min_le_right hd i)

/-- A running fold of binary `min` is a lower bound of the list. -/
theorem qfoldl_min_le_mem (l : List ℚ) (i : ℚ) :
    ∀ v ∈ l, l.foldl (fun m v => min v m) i ≤ v := by
  induction l generalizing i with
  | nil => intro v hv; cases hv
  | cons hd tl ih =>
    intro v hv
    rcases List.mem_cons.mp hv with h | h
    · subst h
      exact le_trans (qfoldl_min_le_init tl (min v i)) (min_le_left v i)
    · exact ih (min hd i) v h

/-- A running fold of binary `min` is attained by the seed or by a list
element. -/
theorem qfoldl_min_attained (l : List ℚ) (i : ℚ) :
    l.foldl (fun m v => min v m) i = i ∨
      ∃ v ∈ l, l.foldl (fun m v => min v m) i = v := by
  induction l generalizing i with
  | nil => exact Or.inl rfl
  | cons hd tl ih =>
    rcases ih (min hd i) with h | ⟨v, hv, he⟩
    · rcases min_choice hd i with hm | hm
      · exact Or.inr ⟨hd, List.mem_cons_self hd tl, by rw [List.foldl_cons, h, hm]⟩
      · exact Or.inl (by rw [List.foldl_cons, h, hm])
    · exact Or.inr ⟨v, List.mem_cons_of_mem hd hv, he⟩

/-- A running fold of binary `max` is at least its seed. -/
theorem qfoldl_max_ge_init (l : List ℚ) (i : ℚ) :
    i ≤ l.foldl (fun m v => max v m) i := by
  induction l generalizing i with
  | nil => exact le_refl i
  | cons hd tl ih => exact le_trans (le_max_right hd i) (ih (max hd i))

/-- A running fold of binary `max` is an upper bound of the list. -/
theorem qfoldl_max_ge_mem (l : List ℚ) (i : ℚ) :
    ∀ v ∈ l, v ≤ l.foldl (fun m v => max v m) i := by
  induction l generalizing i with
  | nil => intro v hv; cases hv
  | cons hd tl ih =>
    intro v hv
    rcases List.mem_cons.mp hv with h | h
    · subst h
      exact le_trans (le_max_left v i) (qfoldl_max_ge_init tl (max v i))
    · exact ih (max hd i) v h

/-- A running fold of binary `max` is attained by the seed or by a list
element. -/
theorem qfoldl_max_attained (l : List ℚ) (i : ℚ) :
    l.foldl (fun m v => max v m) i = i ∨
      ∃ v ∈ l, l.foldl (fun m v => max v m) i = v := by
  induction l generalizing i with
  | nil => exact Or.inl rfl
  | cons hd tl ih =>
    rcases ih (max hd i) with h | ⟨v, hv, he⟩
    · rcases max_choice hd i with hm | hm
      · exact Or.inr ⟨hd, List.mem_cons_self hd tl, by rw [List.foldl_cons, h, hm]⟩
      · exact Or.inl (by rw [List.foldl_cons, h, hm])
    · exact Or.inr ⟨v, List.mem_cons_of_mem hd hv, he⟩

/-- The componentwise scan of `fromPoints` projects to six independent
min/max folds, one per coordinate. -/
theorem aabbScan_proj (l : List Cartesian3) (a : Cartesian3 × Cartesian3) :
    (l.foldl aabbScanStep a).1.x
        = (l.map Cartesian3.x).foldl (fun m v => min v m) a.1.x ∧
    (l.foldl aabbScanStep a).1.y
        = (l.map Cartesian3.y).foldl (fun m v => min v m) a.1.y ∧
    (l.foldl aabbScanStep a).1.z
        = (l.map Cartesian3.z).foldl (fun m v => min v m) a.1.z ∧
    (l.foldl aabbScanStep a).2.x
        = (l.map Cartesian3.x).foldl (fun m v => max v m) a.2.x ∧
    (l.foldl aabbScanStep a).2.y
        = (l.map Cartesian3.y).foldl (fun m v => max v m) a.2.y ∧
    (l.foldl aabbScanStep a).2.z
        = (l.map Cartesian3.z).foldl (fun m v => max v m) a.2.z := by
  induction l generalizing a with
  | nil => exact ⟨rfl, rfl, rfl, rfl, rfl, rfl⟩
  | cons hd tl ih =>
    simpa [aabbScanStep] using ih (aabbScanStep a hd)

/-- The containment half of C6, stated for one box corner pair. -/
def aabbContains (box : AxisAlignedBoundingBox) (p : Cartesian3) : Prop :=
  box.minimum.x ≤ p.x ∧ p.x ≤ box.maximum.x ∧
  box.minimum.y ≤ p.y ∧ p.y ≤ box.maximum.y ∧
  box.minimum.z ≤ p.z ∧ p.z ≤ box.maximum.z

/-- C6: `fromPoints` computes the componentwise minimum and maximum of the
point list — the box contains every input point, each bound coordinate is
attained by some input point, and an empty list yields the degenerate box
with minimum, maximum, and center at the origin. -/
theorem aabb_fromPoints_minmax :
    (∀ (positions : List Cartesian3), ∀ p ∈ positions,
        aabbContains (AxisAlignedBoundingBox.fromPoints positions) p) ∧
    (∀ (positions : List Cartesian3), positions ≠ [] →
        (∃ q ∈ positions,
          (AxisAlignedBoundingBox.fromPoints positions).minimum.x = q.x) ∧
        (∃ q ∈ positions,
          (AxisAlignedBoundingBox.fromPoints positions).minimum.y = q.y) ∧
        (∃ q ∈ positions,
          (AxisAlignedBoundingBox.fromPoints positions).minimum.z = q.z) ∧
        (∃ q ∈ positions,
          (AxisAlignedBoundingBox.fromPoints positions).maximum.x = q.x) ∧
        (∃ q ∈ positions,
          (AxisAlignedBoundingBox.fromPoints positions).maximum.y = q.y) ∧
        (∃ q ∈ positions,
          (AxisAlignedBoundingBox.fromPoints positions).maximum.z = q.z)) ∧
    AxisAlignedBoundingBox.fromPoints []
      = ⟨Cartesian3.ZERO, Cartesian3.ZERO, Cartesian3.ZERO⟩ := by
  refine ⟨?_, ?_, rfl⟩
  · rintro (_ | ⟨p0, rest⟩) p hp
    · cases hp
    · obtain ⟨h1, h2, h3, h4, h5, h6⟩ := aabbScan_proj rest (p0, p0)
      simp only [AxisAlignedBoundingBox.fromPoints]
      rcases List.mem_cons.mp hp with rfl | hmem
      · refine ⟨?_, ?_, ?_, ?_, ?_, ?_⟩
        · rw [h1]; exact qfoldl_min_le_init _ _
        · rw [h4]; exact qfoldl_max_ge_init _ _
        · rw [h2]; exact qfoldl_min_le_init _ _
        · rw [h5]; exact qfoldl_max_ge_init _ _
        · rw [h3]; exact qfoldl_min_le_init _ _
        · rw [h6]; exact qfoldl_max_ge_init _ _
      · refine ⟨?_, ?_, ?_, ?_, ?_, ?_⟩
        · rw [h1]
          exact qfoldl_min_le_mem _ _ _ (List.mem_map_of_mem Cartesian3.x hmem)
        · rw [h4]
          exact qfoldl_max_ge_mem _ _ _ (List.mem_map_of_mem Cartesian3.x hmem)
        · rw [h2]
          exact qfoldl_min_le_mem _ _ _ (List.mem_map_of_mem Cartesian3.y hmem)
        · rw [h5]
          exact qfoldl_max_ge_mem _ _ _ (List.mem_map_of_mem Cartesian3.y hmem)
        · rw [h3]
          exact qfoldl_min_le_mem _ _ _ (List.mem_map_of_mem Cartesian3.z hmem)
        · rw [h6]
          exact qfoldl_max_ge_mem _ _ _ (List.mem_map_of_mem Cartesian3.z hmem)
  · rintro (_ | ⟨p0, rest⟩) hne
    · exact absurd rfl hne
    · obtain ⟨h1, h2, h3, h4, h5, h6⟩ := aabbScan_proj rest (p0, p0)
      simp only [AxisAlignedBoundingBox.fromPoints]
      refine ⟨?_, ?_, ?_, ?_, ?_, ?_⟩
      · rcases qfoldl_min_attained (rest.map Cartesian3.x) p0.x with h | ⟨v, hv, he⟩
        · exact ⟨p0, List.mem_cons_self p0 rest, by rw [h1, h]⟩
        · obtain ⟨q, hq, rfl⟩ := List.mem_map.mp hv
          exact ⟨q, List.mem_cons_of_mem p0 hq, by rw [h1, he]⟩
      · rcases qfoldl_min_attained (rest.map Cartesian3.y) p0.y with h | ⟨v, hv, he⟩
        · exact ⟨p0, List.mem_cons_self p0 rest, by rw [h2, h]⟩
        · obtain ⟨q, hq, rfl⟩ := List.mem_map.mp hv
          exact ⟨q, List.mem_cons_of_mem p0 hq, by rw [h2, he]⟩
      · rcases qfoldl_min_attained (rest.map Cartesian3.z) p0.z with h | ⟨v, hv, he⟩
        · exact ⟨p0, List.mem_cons_self p0 rest, by rw [h3, h]⟩
        · obtain ⟨q, hq, rfl⟩ := List.mem_map.mp hv
          exact ⟨q, List.mem_cons_of_mem p0 hq, by rw [h3, he]⟩
      · rcases qfoldl_max_attained (rest.map Cartesian3.x) p0.x with h | ⟨v, hv, he⟩
        · exact ⟨p0, List.mem_cons_self p0 rest, by rw [h4, h]⟩
        · obtain ⟨q, hq, rfl⟩ := List.mem_map.mp hv
          exact ⟨q, List.mem_cons_of_mem p0 hq, by rw [h4, he]⟩
      · rcases qfoldl_max_attained (rest.map Cartesian3.y) p0.y with h | ⟨v, hv, he⟩
        · exact ⟨p0, List.mem_cons_self p0 rest, by rw [h5, h]⟩
        · obtain ⟨q, hq, rfl⟩ := List.mem_map.mp hv
          exact ⟨q, List.mem_cons_of_mem p0 hq, by rw [h5, he]⟩
      · rcases qfoldl_max_attained (rest.map Cartesian3.z) p0.z with h | ⟨v, hv, he⟩
        · exact ⟨p0, List.mem_cons_self p0 rest, by rw [h6, h]⟩
        · obtain ⟨q, hq, rfl⟩ := List.mem_map.mp hv
          exact ⟨q, List.mem_cons_of_mem p0 hq, by rw [h6, he]⟩

/-- C6 witness: the bound theorem applied on a concrete two-point list. -/
theorem aabb_fromPoints_minmax_witness :
    aabbContains (AxisAlignedBoundingBox.fromPoints [⟨2, 0, 0⟩, ⟨-2, 1, 0⟩])
        ⟨2, 0, 0⟩ ∧
    (∃ q ∈ ([⟨2, 0, 0⟩, ⟨-2, 1, 0⟩] : List Cartesian3),
      (AxisAlignedBoundingBox.fromPoints
          [⟨2, 0, 0⟩, ⟨-2, 1, 0⟩]).minimum.x = q.x) :=
  ⟨aabb_fromPoints_minmax.1 [⟨2, 0, 0⟩, ⟨-2, 1, 0⟩] ⟨2, 0, 0⟩
     (by simp),
   (aabb_fromPoints_minmax.2.1 [⟨2, 0, 0⟩, ⟨-2, 1, 0⟩] (by simp)).1⟩

/-- Whether the point `(px, py)` lies within the extent
`[r.x, r.x + r.width] x [r.y, r.y + r.height]` of rectangle `r`. -/
def inExtent (r : BoundingRectangle) (px py : ℚ) : Prop :=
  r.x ≤ px ∧ px ≤ r.x + r.width ∧ r.y ≤ py ∧ py ≤ r.y + r.height

/-- All four corners of rectangle `a` lie within the extent of `r`. -/
def cornersInExtent (r a : BoundingRectangle) : Prop :=
  inExtent r a.x a.y ∧ inExtent r (a.x + a.width) a.y ∧
  inExtent r a.x (a.y + a.height) ∧
  inExtent r (a.x + a.width) (a.y + a.height)

/-- C7 counterexample: for the degenerate rectangle with width and height
-1 (negative extents are not defended against), the union of the rectangle
with itself does not contain the rectangle's own corner `(x, y)`, so the
claim fails as stated for arbitrary rectangle pairs. -/
theorem boundingRectangle_union_not_contained :
    ¬ cornersInExtent
        (BoundingRectangle.union ⟨0, 0, -1, -1⟩ ⟨0, 0, -1, -1⟩)
        ⟨0, 0, -1, -1⟩ := by
  intro h
  have hx := h.1.2.1
  norm_num [BoundingRectangle.union] at hx

/-- C7 (amended): for rectangles with nonnegative width and height, the
union contains all four corners of both inputs. -/
theorem boundingRectangle_union_contains (a b : BoundingRectangle)
    (haw : 0 ≤ a.width) (hah : 0 ≤ a.height)
    (hbw : 0 ≤ b.width) (hbh : 0 ≤ b.height) :
    cornersInExtent (BoundingRectangle.union a b) a ∧
    cornersInExtent (BoundingRectangle.union a b) b := by
  have hx : (BoundingRectangle.union a b).x = min a.x b.x := rfl
  have hy : (BoundingRectangle.union a b).y = min a.y b.y := rfl
  have hw : (BoundingRectangle.union a b).width
      = max (a.x + a.width) (b.x + b.width) - min a.x b.x := rfl
  have hh : (BoundingRectangle.union a b).height
      = max (a.y + a.height) (b.y + b.height) - min a.y b.y := rfl
  have hax : min a.x b.x ≤ a.x := min_le_left _ _
  have hbx : min a.x b.x ≤ b.x := min_le_right _ _
  have hay : min a.y b.y ≤ a.y := min_le_left _ _
  have hby : min a.y b.y ≤ b.y := min_le_right _ _
  have hax' : a.x + a.width ≤ max (a.x + a.width) (b.x + b.width) :=
    le_max_left _ _
  have hbx' : b.x + b.width ≤ max (a.x + a.width) (b.x + b.width) :=
    le_max_right _ _
  have hay' : a.y + a.height ≤ max (a.y + a.height) (b.y + b.height) :=
    le_max_left _ _
  have hby' : b.y + b.height ≤ max (a.y + a.height) (b.y + b.height) :=
    le_max_right _ _
  simp only [cornersInExtent, inExtent, hx, hy, hw, hh]
  refine ⟨⟨⟨?_, ?_, ?_, ?_⟩, ⟨?_, ?_, ?_, ?_⟩, ⟨?_, ?_, ?_, ?_⟩,
      ⟨?_, ?_, ?_, ?_⟩⟩,
    ⟨⟨?_, ?_, ?_, ?_⟩, ⟨?_, ?_, ?_, ?_⟩, ⟨?_, ?_, ?_, ?_⟩,
      ⟨?_, ?_, ?_, ?_⟩⟩⟩ <;> linarith

/-- C7 witness: the amended union-containment theorem applied on two
concrete nondegenerate rectangles. -/
theorem boundingRectangle_union_contains_witness :
    (0:ℚ) ≤ (⟨0, 0, 2, 3⟩ : BoundingRectangle).width ∧
    cornersInExtent
        (BoundingRectangle.union ⟨0, 0, 2, 3⟩ ⟨-1, 4, 5, 6⟩) ⟨0, 0, 2, 3⟩ :=
  ⟨by norm_num,
   (boundingRectangle_union_contains ⟨0, 0, 2, 3⟩ ⟨-1, 4, 5, 6⟩
      (by norm_num) (by norm_num) (by norm_num) (by norm_num)).1⟩

/-- C8: `pack` followed by `unpack` at the same offset is the identity, for
`Matrix2`, `BoundingRectangle`, and `DistanceDisplayCondition`, on every
buffer large enough to hold the packed value at that offset (and
irrespective of whether a pre-allocated result object is supplied). -/
theorem pack_unpack_roundtrip :
    (∀ (v : Matrix2) (array : List ℚ) (i : ℕ) (r : Option Matrix2),
        i + 4 ≤ array.length →
        Matrix2.unpack (Matrix2.pack v array i) i r = v) ∧
    (∀ (v : BoundingRectangle) (array : List ℚ) (i : ℕ)
        (r : Option BoundingRectangle), i + 4 ≤ array.length →
        BoundingRectangle.unpack (BoundingRectangle.pack v array i) i r = v) ∧
    (∀ (v : DistanceDisplayCondition) (array : List ℚ) (i : ℕ)
        (r : Option DistanceDisplayCondition), i + 2 ≤ array.length →
        DistanceDisplayCondition.unpack
          (DistanceDisplayCondition.pack v array i) i r = v) := by
  refine ⟨?_, ?_, ?_⟩
  · rintro ⟨a, b, c, d⟩ array i r h
    have l0 : i < array.length := by omega
    have l1 : i + 1 < (array.set i a).length := by simp; omega
    have l2 : i + 2 < ((array.set i a).set (i+1) b).length := by simp; omega
    have l3 : i + 3 < (((array.set i a).set (i+1) b).set (i+2) c).length := by
      simp; omega
    cases r <;>
      simp [Matrix2.unpack, Matrix2.pack, Matrix2.mk',
        List.getElem?_set_self l0, List.getElem?_set_self l1,
        List.getElem?_set_self l2, List.getElem?_set_self l3]
  · rintro ⟨a, b, c, d⟩ array i r h
    have l0 : i < array.length := by omega
    have l1 : i + 1 < (array.set i a).length := by simp; omega
    have l2 : i + 2 < ((array.set i a).set (i+1) b).length := by simp; omega
    have l3 : i + 3 < (((array.set i a).set (i+1) b).set (i+2) c).length := by
      simp; omega
    cases r <;>
      simp [BoundingRectangle.unpack, BoundingRectangle.pack,
        List.getElem?_set_self l0, List.getElem?_set_self l1,
        List.getElem?_set_self l2, List.getElem?_set_self l3]
  · rintro ⟨a, b⟩ array i r h
    have l0 : i < array.length := by omega
    have l1 : i + 1 < (array.set i a).length := by simp; omega
    cases r <;>
      simp [DistanceDisplayCondition.unpack, DistanceDisplayCondition.pack,
        List.getElem?_set_self l0, List.getElem?_set_self l1]

/-- C8 witness: the round trip evaluated on concrete values, a concrete
buffer of length 5, and offset 1. -/
theorem pack_unpack_roundtrip_witness :
    1 + 4 ≤ ([9, 9, 9, 9, 9] : List ℚ).length ∧
    Matrix2.unpack (Matrix2.pack ⟨1, 2, 3, 4⟩ [9, 9, 9, 9, 9] 1) 1 none
      = ⟨1, 2, 3, 4⟩ :=
  ⟨by norm_num,
   pack_unpack_roundtrip.1 ⟨1, 2, 3, 4⟩ [9, 9, 9, 9, 9] 1 none (by norm_num)⟩

/-- C10: for `Matrix2.unpack`, `Matrix2.clone`, and
`BoundingRectangle.clone`, supplying a pre-allocated result object yields a
value componentwise equal to the freshly allocated one, for every input and
every prior content of the result object. -/
theorem optional_result_paths_agree :
    (∀ (array : List ℚ) (i : ℕ) (r : Matrix2),
        Matrix2.unpack array i (some r) = Matrix2.unpack array i none) ∧
    (∀ (m r : Matrix2), Matrix2.clone m (some r) = Matrix2.clone m none) ∧
    (∀ (b r : BoundingRectangle),
        BoundingRectangle.clone b (some r) = BoundingRectangle.clone b none) := by
  refine ⟨fun array i r => rfl, fun m r => rfl, fun b r => rfl⟩

/-- The `AssociativeArray` state: the backing value sequence `_array` and
the key-value hash `_hash` (modelled as an association list; JS object
property lookup/assignment/deletion become association-list lookup,
key-erasing insert, and key erase). -/
structure AssocArr (K V : Type) where
  array : List V
  hash : List (K × V)
deriving DecidableEq, Repr

/-- JS object property read `hash[key]`: the value stored under the first
(and, for reachable states, only) occurrence of the key. -/
def hlookup {K V : Type} [DecidableEq K] (k : K) : List (K × V) → Option V
  | [] => none
  | (k', v) :: rest => if k = k' then some v else hlookup k rest

/-- JS object property deletion `delete hash[key]`: drops the entry under
the key (the first occurrence; reachable states have at most one). -/
def eraseKey {K V : Type} [DecidableEq K] (k : K) :
    List (K × V) → List (K × V)
  | [] => []
  | (k', v) :: rest => if k = k' then rest else (k', v) :: eraseKey k rest

/-- The source removes the value with
`array.splice(array.indexOf(value), 1)`: the first occurrence of the value
is deleted; when the value is absent `indexOf` yields -1 and
`splice(-1, 1)` deletes the last element instead (unreachable under the
consistency invariant, but embedded faithfully). -/
def spliceIndexOf {V : Type} [DecidableEq V] (l : List V) (v : V) : List V :=
  if v ∈ l then l.erase v else l.dropLast

/-- A fresh `new AssociativeArray()`. -/
def AssocArr.empty (K V : Type) : AssocArr K V := ⟨[], []⟩

/-- `AssociativeArray.get`. -/
def AssocArr.get {K V : Type} [DecidableEq K] (aa : AssocArr K V) (k : K) :
    Option V :=
  hlookup k aa.hash

/-- `AssociativeArray.remove`: when the key is present, splice the stored
value out of the backing sequence and delete the hash entry. -/
def AssocArr.remove {K V : Type} [DecidableEq K] [DecidableEq V]
    (aa : AssocArr K V) (k : K) : AssocArr K V :=
  match hlookup k aa.hash with
  | some v => ⟨spliceIndexOf aa.array v, eraseKey k aa.hash⟩
  | none => aa

/-- `AssociativeArray.set`: when the new value differs from the stored one
(or the key is absent), first `remove(key)`, then store the value in the
hash and push it onto the backing sequence; otherwise do nothing. -/
def AssocArr.set {K V : Type} [DecidableEq K] [DecidableEq V]
    (aa : AssocArr K V) (k : K) (v : V) : AssocArr K V :=
  match hlookup k aa.hash with
  | some old =>
    if v = old then aa
    else
      let aa' := aa.remove k
      ⟨aa'.array ++ [v], (k, v) :: aa'.hash⟩
  | none =>
    let aa' := aa.remove k
    ⟨aa'.array ++ [v], (k, v) :: aa'.hash⟩

/-- `AssociativeArray.removeAll`: resets both structures when the backing
sequence is nonempty. -/
def AssocArr.removeAll {K V : Type} (aa : AssocArr K V) : AssocArr K V :=
  if aa.array.isEmpty then aa else ⟨[], []⟩

/-- One operation of a client session against the collection. -/
inductive AAOp (K V : Type) where
  | set (k : K) (v : V)
  | remove (k : K)
  | removeAll
deriving DecidableEq, Repr

/-- Apply one operation. -/
def AAOp.apply {K V : Type} [DecidableEq K] [DecidableEq V]
    (aa : AssocArr K V) : AAOp K V → AssocArr K V
  | AAOp.set k v => aa.set k v
  | AAOp.remove k => aa.remove k
  | AAOp.removeAll => aa.removeAll

/-- Run a finite sequence of operations from a state. -/
def AAOp.run {K V : Type} [DecidableEq K] [DecidableEq V]
    (aa : AssocArr K V) (ops : List (AAOp K V)) : AssocArr K V :=
  ops.foldl AAOp.apply aa

/-- The mutual-consistency invariant: the backing sequence is a permutation
of the hash's values and the hash's keys are duplicate-free. -/
def AAInv {K V : Type} (aa : AssocArr K V) : Prop :=
  aa.array.Perm (aa.hash.map Prod.snd) ∧ (aa.hash.map Prod.fst).Nodup

/-- Lookup misses exactly the keys that are absent. -/
theorem hlookup_eq_none {K V : Type} [DecidableEq K] (k : K)
    (l : List (K × V)) : hlookup k l = none ↔ k ∉ l.map Prod.fst := by
  induction l with
  | nil => simp [hlookup]
  | cons hd tl ih =>
    obtain ⟨k', v⟩ := hd
    by_cases hk : k = k' <;> simp [hlookup, hk, ih]

/-- A looked-up value is among the hash's values. -/
theorem mem_snd_of_hlookup {K V : Type} [DecidableEq K] {k : K}
    {v : V} {l : List (K × V)} (h : hlookup k l = some v) :
    v ∈ l.map Prod.snd := by
  induction l with
  | nil => simp [hlookup] at h
  | cons hd tl ih =>
    obtain ⟨k', v'⟩ := hd
    by_cases hk : k = k'
    · simp [hlookup, hk] at h
      simp [h]
    · simp [hlookup, hk] at h
      simp [ih h]

/-- Erasing a key keeps a subsequence of the keys. -/
theorem map_fst_eraseKey_sublist {K V : Type} [DecidableEq K] (k : K)
    (l : List (K × V)) :
    ((eraseKey k l).map Prod.fst).Sublist (l.map Prod.fst) := by
  induction l with
  | nil => simp [eraseKey]
  | cons hd tl ih =>
    obtain ⟨k', v⟩ := hd
    by_cases hk : k = k'
    · simp [eraseKey, hk]
    · simpa [eraseKey, hk] using ih.cons₂ k'

/-- Under duplicate-free keys, erasing a key removes it entirely. -/
theorem not_mem_fst_eraseKey {K V : Type} [DecidableEq K] {k : K}
    {l : List (K × V)} (h : (l.map Prod.fst).Nodup) :
    k ∉ (eraseKey k l).map Prod.fst := by
  induction l with
  | nil => simp [eraseKey]
  | cons hd tl ih =>
    obtain ⟨k', v⟩ := hd
    simp only [List.map_cons, List.nodup_cons] at h
    by_cases hk : k = k'
    · subst hk
      simpa [eraseKey] using h.1
    · simpa [eraseKey, hk] using ih h.2

/-- Under duplicate-free keys, erasing the key of a stored value removes
exactly one occurrence of that value from the hash's value multiset. -/
theorem snd_eraseKey_perm {K V : Type} [DecidableEq K] [DecidableEq V]
    {k : K} {v : V} {l : List (K × V)} (hnd : (l.map Prod.fst).Nodup)
    (h : hlookup k l = some v) :
    ((eraseKey k l).map Prod.snd).Perm ((l.map Prod.snd).erase v) := by
  induction l with
  | nil => simp [hlookup] at h
  | cons hd tl ih =>
    obtain ⟨k', v'⟩ := hd
    simp only [List.map_cons, List.nodup_cons] at hnd
    by_cases hk : k = k'
    · subst hk
      simp [hlookup] at h
      subst h
      simp [eraseKey, List.erase_cons_head]
    · simp [hlookup, hk] at h
      have hstep : (eraseKey k ((k', v') :: tl)).map Prod.snd
          = v' :: (eraseKey k tl).map Prod.snd := by simp [eraseKey, hk]
      by_cases hv : v' = v
      · subst hv
        have hmem : v' ∈ tl.map Prod.snd := mem_snd_of_hlookup h
        have hgoal : ((((k', v') :: tl)).map Prod.snd).erase v'
            = tl.map Prod.snd := by simp [List.erase_cons_head]
        rw [hstep, hgoal]
        exact ((ih hnd.2 h).cons v').trans (List.perm_cons_erase hmem).symm
      · have hgoal : ((((k', v') :: tl)).map Prod.snd).erase v
            = v' :: (tl.map Prod.snd).erase v := by
          simp [List.erase_cons, hv]
        rw [hstep, hgoal]
        exact (ih hnd.2 h).cons v'

/-- Under duplicate-free keys, a stored pair is found by lookup. -/
theorem hlookup_of_mem_nodup {K V : Type} [DecidableEq K] {k : K} {v : V}
    {l : List (K × V)} (hnd : (l.map Prod.fst).Nodup) (h : (k, v) ∈ l) :
    hlookup k l = some v := by
  induction l with
  | nil => cases h
  | cons hd tl ih =>
    obtain ⟨k', v'⟩ := hd
    simp only [List.map_cons, List.nodup_cons] at hnd
    rcases List.mem_cons.mp h with heq | hmem
    · injection heq with h1 h2
      subst h1; subst h2
      simp [hlookup]
    · have hk : k ≠ k' := by
        rintro rfl
        exact hnd.1 (List.mem_map_of_mem Prod.fst hmem)
      simp [hlookup, hk, ih hnd.2 hmem]

/-- A fresh collection satisfies the consistency invariant. -/
theorem AAInv_empty (K V : Type) : AAInv (AssocArr.empty K V) := by
  constructor <;> simp [AssocArr.empty]

/-- `remove` preserves the consistency invariant. -/
theorem AAInv_remove {K V : Type} [DecidableEq K] [DecidableEq V]
    {aa : AssocArr K V} (h : AAInv aa) (k : K) : AAInv (aa.remove k) := by
  obtain ⟨hperm, hnd⟩ := h
  match hl : hlookup k aa.hash with
  | none => simpa [AssocArr.remove, hl] using ⟨hperm, hnd⟩
  | some v =>
    have hv_hash : v ∈ aa.hash.map Prod.snd := mem_snd_of_hlookup hl
    have hv_arr : v ∈ aa.array := hperm.mem_iff.mpr hv_hash
    constructor
    · show (aa.remove k).array.Perm ((aa.remove k).hash.map Prod.snd)
      have harr : (aa.remove k).array = aa.array.erase v := by
        simp [AssocArr.remove, hl, spliceIndexOf, hv_arr]
      have hhash : (aa.remove k).hash = eraseKey k aa.hash := by
        simp [AssocArr.remove, hl]
      rw [harr, hhash]
      exact (hperm.erase v).trans (snd_eraseKey_perm hnd hl).symm
    · show ((aa.remove k).hash.map Prod.fst).Nodup
      have hhash : (aa.remove k).hash = eraseKey k aa.hash := by
        simp [AssocArr.remove, hl]
      rw [hhash]
      exact hnd.sublist (map_fst_eraseKey_sublist k aa.hash)

/-- After `remove k` the key `k` is absent. -/
theorem remove_key_absent {K V : Type} [DecidableEq K] [DecidableEq V]
    {aa : AssocArr K V} (h : AAInv aa) (k : K) :
    k ∉ (aa.remove k).hash.map Prod.fst := by
  match hl : hlookup k aa.hash with
  | none =>
    have : aa.remove k = aa := by simp [AssocArr.remove, hl]
    rw [this]
    exact (hlookup_eq_none k aa.hash).mp hl
  | some v =>
    have hhash : (aa.remove k).hash = eraseKey k aa.hash := by
      simp [AssocArr.remove, hl]
    rw [hhash]
    exact not_mem_fst_eraseKey h.2

/-- `set` preserves the consistency invariant. -/
theorem AAInv_set {K V : Type} [DecidableEq K] [DecidableEq V]
    {aa : AssocArr K V} (h : AAInv aa) (k : K) (v : V) :
    AAInv (aa.set k v) := by
  have hrem : AAInv (aa.remove k) := AAInv_remove h k
  have habs : k ∉ (aa.remove k).hash.map Prod.fst := remove_key_absent h k
  have hpush : AAInv
      (⟨(aa.remove k).array ++ [v], (k, v) :: (aa.remove k).hash⟩ :
        AssocArr K V) := by
    constructor
    · show ((aa.remove k).array ++ [v]).Perm
        (((k, v) :: (aa.remove k).hash).map Prod.snd)
      simp only [List.map_cons]
      exact (List.perm_append_singleton v _).trans (hrem.1.cons v)
    · show (((k, v) :: (aa.remove k).hash).map Prod.fst).Nodup
      simp only [List.map_cons, List.nodup_cons]
      exact ⟨habs, hrem.2⟩
  match hl : hlookup k aa.hash with
  | none => simpa [AssocArr.set, hl] using hpush
  | some old =>
    by_cases hv : v = old
    · simpa [AssocArr.set, hl, hv] using h
    · simpa [AssocArr.set, hl, hv] using hpush

/-- `removeAll` preserves the consistency invariant. -/
theorem AAInv_removeAll {K V : Type} {aa : AssocArr K V} (h : AAInv aa) :
    AAInv aa.removeAll := by
  by_cases he : aa.array.isEmpty <;> simp [AssocArr.removeAll, he]
  · exact h
  · constructor <;> simp

/-- Every operation preserves the consistency invariant. -/
theorem AAInv_apply {K V : Type} [DecidableEq K] [DecidableEq V]
    {aa : AssocArr K V} (h : AAInv aa) (op : AAOp K V) :
    AAInv (AAOp.apply aa op) := by
  cases op with
  | set k v => exact AAInv_set h k v
  | remove k => exact AAInv_remove h k
  | removeAll => exact AAInv_removeAll h

/-- Any operation sequence run from a state satisfying the invariant ends
in a state satisfying it. -/
theorem AAInv_run {K V : Type} [DecidableEq K] [DecidableEq V]
    {aa : AssocArr K V} (h : AAInv aa) (ops : List (AAOp K V)) :
    AAInv (AAOp.run aa ops) := by
  induction ops generalizing aa with
  | nil => exact h
  | cons op rest ih => exact ih (AAInv_apply h op)

/-- C4 (amended): after any finite sequence of `set`/`remove`/`removeAll`
operations from a fresh collection, the backing values sequence and the
hash stay mutually consistent: the sequence is a permutation of the hash's
values (so `values.length` equals the number of distinct keys currently
set, the hash keys being duplicate-free), every value reachable through
`get` appears in the sequence, and every element of the sequence is
retrievable via `get` under at least one key. -/
theorem associativeArray_consistency {K V : Type} [DecidableEq K]
    [DecidableEq V] (ops : List (AAOp K V)) :
    (AAOp.run (AssocArr.empty K V) ops).array.Perm
        ((AAOp.run (AssocArr.empty K V) ops).hash.map Prod.snd) ∧
    (AAOp.run (AssocArr.empty K V) ops).array.length
        = (AAOp.run (AssocArr.empty K V) ops).hash.length ∧
    ((AAOp.run (AssocArr.empty K V) ops).hash.map Prod.fst).Nodup ∧
    (∀ (k : K) (v : V), (AAOp.run (AssocArr.empty K V) ops).get k = some v →
        v ∈ (AAOp.run (AssocArr.empty K V) ops).array) ∧
    (∀ v ∈ (AAOp.run (AssocArr.empty K V) ops).array,
        ∃ k, (AAOp.run (AssocArr.empty K V) ops).get k = some v) := by
  obtain ⟨hperm, hnd⟩ := AAInv_run (AAInv_empty K V) ops
  refine ⟨hperm, ?_, hnd, ?_, ?_⟩
  · rw [hperm.length_eq, List.length_map]
  · intro k v hget
    exact hperm.mem_iff.mpr (mem_snd_of_hlookup hget)
  · intro v hv
    have hv' : v ∈ (AAOp.run (AssocArr.empty K V) ops).hash.map Prod.snd :=
      hperm.mem_iff.mp hv
    obtain ⟨p, hp, hpv⟩ := List.mem_map.mp hv'
    refine ⟨p.1, hlookup_of_mem_nodup hnd ?_⟩
    rw [show (p.1, v) = p by rw [← hpv]]
    exact hp

/-- C4 witness: the consistency theorem on a concrete session, with its
`get`-implication discharged at a concrete key and value. -/
theorem associativeArray_consistency_witness :
    (AAOp.run (AssocArr.empty ℕ ℕ)
        [AAOp.set 0 5, AAOp.set 1 6, AAOp.remove 0]).array.length
      = (AAOp.run (AssocArr.empty ℕ ℕ)
          [AAOp.set 0 5, AAOp.set 1 6, AAOp.remove 0]).hash.length ∧
    6 ∈ (AAOp.run (AssocArr.empty ℕ ℕ)
          [AAOp.set 0 5, AAOp.set 1 6, AAOp.remove 0]).array :=
  ⟨(associativeArray_consistency
      [AAOp.set 0 5, AAOp.set 1 6, AAOp.remove 0]).2.1,
   (associativeArray_consistency
      [AAOp.set 0 5, AAOp.set 1 6, AAOp.remove 0]).2.2.2.1 1 6 (by decide)⟩

/-- C4 counterexample: storing the same value under two different keys
leaves that value retrievable under two keys, so an element of the values
array is not retrievable under exactly one key as the claim states (only
under at least one). -/
theorem associativeArray_value_under_two_keys :
    (AAOp.run (AssocArr.empty ℕ ℕ) [AAOp.set 0 7, AAOp.set 1 7]).get 0
        = some 7 ∧
    (AAOp.run (AssocArr.empty ℕ ℕ) [AAOp.set 0 7, AAOp.set 1 7]).get 1
        = some 7 ∧
    7 ∈ (AAOp.run (AssocArr.empty ℕ ℕ) [AAOp.set 0 7, AAOp.set 1 7]).array ∧
    ¬ (∃! k, (AAOp.run (AssocArr.empty ℕ ℕ)
        [AAOp.set 0 7, AAOp.set 1 7]).get k = some 7) := by
  refine ⟨by decide, by decide, by decide, ?_⟩
  rintro ⟨k, hk, huniq⟩
  have h0 := huniq 0 (by decide)
  have h1 := huniq 1 (by decide)
  omega

/-- A geodetic position after `Cartographic`: longitude and latitude in
radians, height in meters. -/
structure Cartographic where
  longitude : ℚ
  latitude : ℚ
  height : ℚ
deriving DecidableEq, Repr

/-- The ellipsoid descriptor consumed by `Cartographic.fromCartesian`
(the `EllipsoidLike` interface): precomputed inverse radii, inverse squared
radii, and the squared center tolerance. -/
structure EllipsoidLike where
  oneOverRadii : Cartesian3
  oneOverRadiiSquared : Cartesian3
  centerToleranceSquared : ℚ
deriving DecidableEq, Repr

/-- `CesiumMath.sign`: the sign of a number as -1, 0, or 1. -/
def qsign (q : ℚ) : ℚ := if 0 < q then 1 else if q < 0 then -1 else 0

/-- Modelled from the spec: the degenerate-center test of the geodetic
surface projection. The spec says the projection returns no result exactly
when the input lies within a small tolerance of the ellipsoid's center; the
ellipsoid descriptor supplies the tolerance as a squared quantity alongside
the inverse radii, so the test compares the squared norm of the
radii-scaled position against `centerToleranceSquared`. -/
def withinCenterTolerance (cartesian : Cartesian3) (e : EllipsoidLike) :
    Prop :=
  (cartesian.x * e.oneOverRadii.x) ^ 2 + (cartesian.y * e.oneOverRadii.y) ^ 2 +
      (cartesian.z * e.oneOverRadii.z) ^ 2
    < e.centerToleranceSquared

instance (cartesian : Cartesian3) (e : EllipsoidLike) :
    Decidable (withinCenterTolerance cartesian e) := by
  unfold withinCenterTolerance
  infer_instance

/-- Modelled from the spec: `scaleToGeodeticSurface` is imported by
`Cartographic.ts` but its implementation is not among the excerpted
sources. Per the spec it iteratively finds the closest point on the
ellipsoid surface and returns no result iff the input is within the
center tolerance. The iterative surface projection itself involves square
roots, so the surface point produced in the defined case is abstracted as
the parameter `surfaceProj`; every claim checked against this model is
independent of its value. -/
def scaleToGeodeticSurface (surfaceProj : Cartesian3 → EllipsoidLike → Cartesian3)
    (cartesian : Cartesian3) (e : EllipsoidLike) : Option Cartesian3 :=
  if withinCenterTolerance cartesian e then none
  else some (surfaceProj cartesian e)

/-- `Cartographic.fromCartesian` (body from the source): project to the
surface, propagate the no-result sentinel, otherwise derive the surface
normal and compute longitude, latitude, and signed height. The
transcendental primitives of the source (`Cartesian3.normalize`,
`Math.atan2`, `Math.asin`, `Cartesian3.magnitude`) are real-valued and are
passed as parameters; the result structure and definedness do not depend
on them. The optional result object only selects which instance receives
the three computed fields, all of which are assigned. -/
def Cartographic.fromCartesian
    (surfaceProj : Cartesian3 → EllipsoidLike → Cartesian3)
    (normalizeF : Cartesian3 → Cartesian3) (atan2F : ℚ → ℚ → ℚ)
    (asinF : ℚ → ℚ) (magnitudeF : Cartesian3 → ℚ)
    (cartesian : Cartesian3) (e : EllipsoidLike) : Option Cartographic :=
  match scaleToGeodeticSurface surfaceProj cartesian e with
  | none => none
  | some p =>
    let n := normalizeF (Cartesian3.multiplyComponents p e.oneOverRadiiSquared)
    let h := Cartesian3.sub cartesian p
    some
      ⟨atan2F n.y n.x, asinF n.z,
       qsign (Cartesian3.dot h cartesian) * magnitudeF h⟩

/-- C5: `fromCartesian` returns the no-result sentinel exactly when the
input lies within the ellipsoid's center tolerance, for every choice of
the transcendental primitives; on every other input it returns a defined
`Cartographic` (the embedding is total, mirroring the absence of any
throwing path in the source function). -/
theorem fromCartesian_none_iff_center
    (surfaceProj : Cartesian3 → EllipsoidLike → Cartesian3)
    (normalizeF : Cartesian3 → Cartesian3) (atan2F : ℚ → ℚ → ℚ)
    (asinF : ℚ → ℚ) (magnitudeF : Cartesian3 → ℚ)
    (cartesian : Cartesian3) (e : EllipsoidLike) :
    (Cartographic.fromCartesian surfaceProj normalizeF atan2F asinF
        magnitudeF cartesian e).isNone
      ↔ withinCenterTolerance cartesian e := by
  by_cases h : withinCenterTolerance cartesian e <;>
    simp [Cartographic.fromCartesian, scaleToGeodeticSurface, h]
